import Mathlib

/-!
Verification development for the mdchat summarize command
(src/commands/summarize.js).

Strings are modelled as lists of characters; the JavaScript functions of
the chunk splitter and of the hierarchical summarizer are embedded as
executable Lean definitions, and the external LLM call (askLLM from
src/core/llm.js) is modelled as an injected oracle of type
String to Except String String.
-/

namespace Mdchat

/-- Character class of the JavaScript regular-expression class backslash-s
(whitespace), as used by the split regexes and by String.prototype.trim. -/
def isJsWs (c : Char) : Bool :=
  c == ' ' || c == '\t' || c == '\n' || c == '\x0B' || c == '\x0C' || c == '\r' ||
  c == '\u00A0' || c == '\u1680' ||
  ('\u2000' ≤ c && c ≤ '\u200A') ||
  c == '\u2028' || c == '\u2029' || c == '\u202F' || c == '\u205F' ||
  c == '\u3000' || c == '\uFEFF'

/-- Sentence-terminating punctuation of the lookbehind class in the regex
at line 331 of summarize.js: period, exclamation mark, question mark. -/
def sentEnd (c : Char) : Bool := c == '.' || c == '!' || c == '?'

/-- Whether the accumulated piece ends in sentence punctuation, which is
what the zero-width lookbehind of the split regex tests. -/
def endsSent (acc : List Char) : Bool :=
  match acc.getLast? with
  | some c => sentEnd c
  | none => false

/-- One-pass scanner implementing content.split with the regex
lookbehind-[.!?] whitespace-plus of line 331: a separator is a maximal
whitespace run immediately preceded by sentence punctuation.  The flag
records whether the scanner is inside a separator run. -/
def sentAux : List Char → List Char → Bool → List (List Char)
  | [], acc, _ => [acc]
  | c :: rest, acc, inSep =>
    if isJsWs c then
      if inSep then sentAux rest acc true
      else if endsSent acc then acc :: sentAux rest [] true
      else sentAux rest (acc ++ [c]) false
    else sentAux rest (acc ++ [c]) false

/-- The sentence segmentation of line 331 of summarize.js. -/
def sentSplit (l : List Char) : List (List Char) := sentAux l [] false

/-- One-pass scanner implementing sentence.split with the regex
whitespace-plus of line 377: pieces are the maximal runs of
non-whitespace characters, with an empty leading piece when the string
starts with whitespace and an empty trailing piece when it ends with
whitespace. -/
def wsAux : List Char → List Char → Bool → List (List Char)
  | [], acc, inRun => if inRun then [acc, []] else [acc]
  | c :: rest, acc, inRun =>
    if isJsWs c then wsAux rest acc true
    else if inRun then acc :: wsAux rest [c] false
    else wsAux rest (acc ++ [c]) false

/-- The word segmentation of line 377 of summarize.js. -/
def wsSplit (l : List Char) : List (List Char) := wsAux l [] false

/-- Prefix of a pending whitespace run strictly before its first newline. -/
def pendBefore (pend : List Char) : List Char :=
  pend.takeWhile (fun c => !(c == '\n'))

/-- Suffix of a pending whitespace run strictly after its last newline. -/
def pendAfter (pend : List Char) : List Char :=
  (pend.reverse.takeWhile (fun c => !(c == '\n'))).reverse

/-- One-pass scanner implementing sentence.split with the regex
newline whitespace-star newline of line 367.  A maximal whitespace run
containing at least two newlines yields exactly one separator, reaching
from the first to the last newline of the run; the run prefix before the
first newline stays with the left piece and the run suffix after the
last newline starts the right piece. -/
def paraAux : List Char → List Char → List Char → List (List Char)
  | [], acc, pend =>
    if 2 ≤ pend.count '\n' then [acc ++ pendBefore pend, pendAfter pend]
    else [acc ++ pend]
  | c :: rest, acc, pend =>
    if isJsWs c then paraAux rest acc (pend ++ [c])
    else if 2 ≤ pend.count '\n' then
      (acc ++ pendBefore pend) :: paraAux rest (pendAfter pend ++ [c]) []
    else paraAux rest (acc ++ pend ++ [c]) []

/-- The paragraph segmentation of line 367 of summarize.js. -/
def paraSplit (l : List Char) : List (List Char) := paraAux l [] []

/-- JavaScript String.prototype.trim: remove leading and trailing
whitespace. -/
def trim (l : List Char) : List Char :=
  ((l.dropWhile isJsWs).reverse.dropWhile isJsWs).reverse

/-- The greedy word-packing loop of lines 377 to 399 of summarize.js:
append the next word with a separating space when
currentChunk.length + word.length + 1 stays within maxSize, otherwise
close the current chunk; a single word arriving at an empty accumulator
that cannot fit is pushed on its own. -/
def wordsLoop (maxSize : Nat) : List (List Char) → List Char → List (List Char)
  | [], currentChunk =>
    if 0 < currentChunk.length then [trim currentChunk] else []
  | w :: rest, currentChunk =>
    if maxSize < currentChunk.length + w.length + 1 then
      if 0 < currentChunk.length then trim currentChunk :: wordsLoop maxSize rest w
      else w :: wordsLoop maxSize rest currentChunk
    else wordsLoop maxSize rest
      (currentChunk ++ (if 0 < currentChunk.length then [' '] else []) ++ w)

/-- Fuel-indexed form of splitLongSentence (lines 361 to 400 of
summarize.js).  The recursion of the source is on the paragraph pieces,
which are strictly shorter than the sentence whenever the paragraph
split is nontrivial, so fuel equal to the sentence length suffices; the
fuel-zero fallback is never reached from splitLongSentence. -/
def splitLongSentenceF : Nat → List Char → Nat → List (List Char)
  | 0, s, _ => [s]
  | fuel + 1, s, maxSize =>
    if s.length ≤ maxSize then [s]
    else
      let paragraphs := paraSplit s
      if 1 < paragraphs.length then
        paragraphs.flatMap (fun p => splitLongSentenceF fuel p maxSize)
      else wordsLoop maxSize (wsSplit s) []

/-- splitLongSentence of lines 361 to 400 of summarize.js: a sentence
within the budget is returned whole; otherwise it is split by paragraph
breaks when possible, recursively, and by greedy word packing as the
last resort. -/
def splitLongSentence (s : List Char) (maxSize : Nat) : List (List Char) :=
  splitLongSentenceF s.length s maxSize

/-- The greedy sentence-packing loop of lines 333 to 353 of summarize.js.
Note that the overflow test currentChunk.length + sentence.length does
not count the joining space, and that an oversized sentence arriving at
a nonempty accumulator is kept whole as the next accumulator value with
no fallback split. -/
def chunksLoop (maxChunkSize : Nat) : List (List Char) → List Char → List (List Char)
  | [], currentChunk =>
    if 0 < currentChunk.length then [trim currentChunk] else []
  | s :: rest, currentChunk =>
    if maxChunkSize < currentChunk.length + s.length then
      if 0 < currentChunk.length then
        trim currentChunk :: chunksLoop maxChunkSize rest s
      else splitLongSentence s maxChunkSize ++ chunksLoop maxChunkSize rest []
    else chunksLoop maxChunkSize rest
      (currentChunk ++ (if 0 < currentChunk.length then [' '] else []) ++ s)

/-- splitIntoChunks of lines 329 to 356 of summarize.js. -/
def splitIntoChunks (content : List Char) (maxChunkSize : Nat) : List (List Char) :=
  (chunksLoop maxChunkSize (sentSplit content) []).filter (fun c => 0 < c.length)

/-- estimateTokens of line 8 of summarize.js: the ceiling of the character
count divided by four. -/
def estimateTokens (text : String) : Nat := (text.length + 3) / 4

/-- MAX_INPUT_TOKENS of line 11 of summarize.js. -/
def MAX_INPUT_TOKENS : Nat := 15000

/-- MAX_CHUNK_SIZE of line 12 of summarize.js. -/
def MAX_CHUNK_SIZE : Nat := MAX_INPUT_TOKENS * 4

/-- The LLM oracle: askLLM of src/core/llm.js is an external capability;
a call either produces generated text or fails with an error message. -/
abbrev LLM : Type := String → Except String String

/-- The prompt of summarizeSingleChunk, lines 281 to 287 of summarize.js. -/
def singleChunkPrompt (content : String) : String :=
  "Please summarize the following content. Focus on the key points, main ideas, and important takeaways. Be concise but comprehensive:\n\n"
    ++ content

/-- summarizeSingleChunk of lines 281 to 287 of summarize.js, returning
the ordered list of prompts issued to the LLM together with the result. -/
def summarizeSingleChunk (ask : LLM) (content : String) :
    List String × Except String String :=
  ([singleChunkPrompt content], ask (singleChunkPrompt content))

/-- The per-chunk prompt of lines 302 to 304 of summarize.js, for the
chunk at zero-based index i out of n. -/
def chunkPrompt (filename : String) (i n : Nat) (chunk : List Char) : String :=
  "Please summarize this section (part " ++ toString (i + 1) ++ " of "
    ++ toString n ++ ") from " ++ filename
    ++ ". Focus on key points and main ideas:\n\n" ++ String.mk chunk

/-- The labelled partial summary pushed at line 307 of summarize.js. -/
def partLabel (i : Nat) (s : String) : String :=
  "**Part " ++ toString (i + 1) ++ ":**\n" ++ s

/-- The final synthesis prompt of lines 319 to 321 of summarize.js. -/
def finalPromptOf (filename : String) (partials : List String) : String :=
  "Please create a comprehensive summary from these section summaries of "
    ++ filename
    ++ ". Combine and synthesize the key points into a cohesive overview:\n\n"
    ++ String.intercalate "\n\n" partials

/-- The per-chunk loop of lines 299 to 313 of summarize.js: issue one
generation call per chunk in order, collecting the labelled partial
summaries; a failed call ends the loop at once and the error propagates
(the thrown error aborts summarizeInChunks).  Returns the ordered list
of prompts actually issued and either the partial summaries or the
error. -/
def chunkLoop (ask : LLM) (filename : String) (n : Nat) :
    List (List Char) → Nat → List String × Except String (List String)
  | [], _ => ([], .ok [])
  | c :: rest, i =>
    let p := chunkPrompt filename i n c
    match ask p with
    | .error e => ([p], .error e)
    | .ok s =>
      let r := chunkLoop ask filename n rest (i + 1)
      (p :: r.1, r.2.map (fun l => partLabel i s :: l))

/-- summarizeInChunks of lines 292 to 324 of summarize.js, with the token
budget a parameter (the source fixes it to MAX_INPUT_TOKENS, and splits
with MAX_CHUNK_SIZE = MAX_INPUT_TOKENS * 4).  Returns the ordered list
of prompts issued and the final result. -/
def summarizeInChunks (ask : LLM) (content : String) (filename : String)
    (tokenBudget : Nat) : List String × Except String String :=
  let chunks := splitIntoChunks content.toList (tokenBudget * 4)
  let r := chunkLoop ask filename chunks.length chunks 0
  match r.2 with
  | .error e => (r.1, .error e)
  | .ok partials =>
    let fp := finalPromptOf filename partials
    (r.1 ++ [fp], ask fp)

/-- The summarization decision of lines 130 to 135 (and identically lines
182 to 187) of summarize.js: content within the token budget goes through
one direct call, larger content through chunked summarization. -/
def summarizeDoc (ask : LLM) (content : String) (tokenBudget : Nat)
    (filename : String) : List String × Except String String :=
  if estimateTokens content ≤ tokenBudget then summarizeSingleChunk ask content
  else summarizeInChunks ask content filename tokenBudget

/-- One input file of the multi-file orchestration: its path, its base
name, the outcome of fs.statSync (the size in bytes, or a thrown error)
and the outcome of fs.promises.readFile. -/
structure FileInput where
  path : String
  baseName : String
  size : Except String Nat
  content : Except String String
  deriving Repr

/-- One successful per-file summary as pushed at lines 189 to 194 of
summarize.js. -/
structure FileSummary where
  file : String
  fileName : String
  summary : String
  tokens : Nat
  deriving Repr, DecidableEq

/-- The body of one iteration of the loop of lines 160 to 207 of
summarize.js: stat the file (a thrown error is caught), skip it when it
is over fifty megabytes (ok none), read it, summarize it with the shared
decision of lines 182 to 187, and package the summary; any thrown or
generation error is the error case, which the loop catches and logs. -/
def processOneFile (ask : LLM) (tokenBudget : Nat) (f : FileInput) :
    Except String (Option FileSummary) := do
  let size ← f.size
  if 50 * 1024 * 1024 < size then
    pure none
  else do
    let content ← f.content
    let tokens := estimateTokens content
    match (summarizeDoc ask content tokenBudget f.baseName).2 with
    | .error e => throw e
    | .ok summary => pure (some ⟨f.path, f.baseName, summary, tokens⟩)

/-- The multi-file loop of lines 160 to 207 of summarize.js: per-file
failures and skips are caught and the loop continues with the remaining
files; only successful summaries are collected, in order. -/
def processFilesLoop (ask : LLM) (tokenBudget : Nat) :
    List FileInput → List FileSummary
  | [] => []
  | f :: rest =>
    match processOneFile ask tokenBudget f with
    | .ok (some s) => s :: processFilesLoop ask tokenBudget rest
    | _ => processFilesLoop ask tokenBudget rest

/-- The combined-summary prompt of lines 250 to 261 of summarize.js.  The
fmt parameter stands for Number.prototype.toLocaleString, whose exact
digit grouping depends on the runtime locale and is external to the
source. -/
def combinedPrompt (fmt : Nat → String) (summaries : List FileSummary) : String :=
  "Please create a comprehensive overview summary from these individual file summaries. Focus on common themes, key insights, and overall patterns across all files:\n\nTotal files: "
    ++ toString summaries.length
    ++ "\nTotal tokens processed: " ++ fmt (summaries.map (·.tokens)).sum
    ++ "\n\n"
    ++ String.intercalate "\n\n---\n\n"
        (summaries.map (fun s =>
          "**" ++ s.fileName ++ "** (" ++ fmt s.tokens ++ " tokens):\n" ++ s.summary))

/-- The generation call of generateCombinedSummary, line 263 of
summarize.js. -/
def generateCombinedSummary (ask : LLM) (fmt : Nat → String)
    (summaries : List FileSummary) : Except String String :=
  ask (combinedPrompt fmt summaries)

/-- processMultipleFiles of lines 154 to 217 of summarize.js: run the
per-file loop, then (line 210) produce one combined summary when the
combine option is set or when more than ten files were matched, and
individual summaries otherwise (modelled as none). -/
def processMultipleFiles (ask : LLM) (fmt : Nat → String) (tokenBudget : Nat)
    (combine : Bool) (files : List FileInput) :
    List FileSummary × Option (Except String String) :=
  let summaries := processFilesLoop ask tokenBudget files
  if combine || decide (10 < files.length) then
    (summaries, some (generateCombinedSummary ask fmt summaries))
  else (summaries, none)

/-- The marker block built at line 137 of summarize.js
(processSingleInput). -/
def singleSummaryBlock (summary : String) : String :=
  "<!-- AI:summary -->\n" ++ summary ++ "\n<!-- /AI -->\n"

/-- The marker block built at line 226 of summarize.js
(generateIndividualSummaries). -/
def individualSummaryBlock (summary : String) : String :=
  "<!-- AI:summary -->\n" ++ summary ++ "\n<!-- /AI -->\n"

/-- The marker block built at line 265 of summarize.js
(generateCombinedSummary). -/
def combinedSummaryBlock (summary : String) : String :=
  "<!-- AI:summary -->\n" ++ summary ++ "\n<!-- /AI -->\n"

/-- The text emitted for a single input by lines 139 to 148 of
summarize.js: appended to the output file under a heading when the
output option is set, printed bare otherwise. -/
def singleOutputText (isFile : Bool) (displayName summary : String)
    (toFile : Bool) : String :=
  if toFile then
    (if isFile then "\n\n## Summary of " ++ displayName ++ "\n\n"
     else "\n\n## Summary\n\n") ++ singleSummaryBlock summary
  else singleSummaryBlock summary

/-- The text emitted for one file by lines 225 to 235 of summarize.js;
the console path concatenates the three console.log lines, each of which
appends a newline. -/
def individualOutputText (fmt : Nat → String) (s : FileSummary)
    (toFile : Bool) : String :=
  if toFile then
    "\n\n## Summary of " ++ s.fileName ++ "\n*File: " ++ s.file
      ++ "* | *Tokens: " ++ fmt s.tokens ++ "*\n\n"
      ++ individualSummaryBlock s.summary
  else
    "\n## " ++ s.fileName ++ "\n" ++ "*File: " ++ s.file ++ "* | *Tokens: "
      ++ fmt s.tokens ++ "*\n" ++ individualSummaryBlock s.summary ++ "\n"

/-- The text emitted for the combined summary by lines 267 to 275 of
summarize.js. -/
def combinedOutputText (fmt : Nat → String) (n totalTokens : Nat)
    (summary : String) (toFile : Bool) : String :=
  if toFile then
    "\n\n## Combined Summary\n*" ++ toString n
      ++ " files processed* | *Total tokens: " ++ fmt totalTokens ++ "*\n\n"
      ++ combinedSummaryBlock summary
  else
    "\n## Combined Summary\n" ++ "*" ++ toString n
      ++ " files processed* | *Total tokens: " ++ fmt totalTokens ++ "*\n"
      ++ combinedSummaryBlock summary ++ "\n"

/-! ### Helper notions and lemmas -/

/-- The subsequence of non-whitespace characters of a piece of text.  Two
texts with the same filterNW carry the same content up to whitespace
normalization. -/
def filterNW (l : List Char) : List Char := l.filter (fun c => !isJsWs c)

/-- A piece of text with no whitespace at all (single words are such). -/
def NoWs (l : List Char) : Prop := ∀ c ∈ l, ¬ isJsWs c = true

/-- Rejoining a list of chunks with single separating spaces, the reading
of the chunks used by the content-preservation property. -/
def joinSp : List (List Char) → List Char
  | [] => []
  | [c] => c
  | c :: c2 :: rest => c ++ [' '] ++ joinSp (c2 :: rest)

/-- The value of a successful oracle answer, with a default for the error
case (used only to state what the loop produced when every call
succeeded). -/
def okD : Except String String → String
  | .ok s => s
  | .error _ => ""

/-- The ordered list of per-chunk prompts that the loop of lines 299 to
313 of summarize.js issues, starting at index i. -/
def chunkPromptsFrom (filename : String) (n : Nat) :
    Nat → List (List Char) → List String
  | _, [] => []
  | i, c :: rest =>
    chunkPrompt filename i n c :: chunkPromptsFrom filename n (i + 1) rest

/-- The ordered list of labelled partial summaries that the loop of lines
299 to 313 of summarize.js collects when every generation call succeeds,
starting at index i. -/
def partsFrom (ask : LLM) (filename : String) (n : Nat) :
    Nat → List (List Char) → List String
  | _, [] => []
  | i, c :: rest =>
    partLabel i (okD (ask (chunkPrompt filename i n c)))
      :: partsFrom ask filename n (i + 1) rest

theorem filterNW_append (l₁ l₂ : List Char) :
    filterNW (l₁ ++ l₂) = filterNW l₁ ++ filterNW l₂ :=
  List.filter_append ..

theorem filterNW_ws_nil {l : List Char} (h : ∀ c ∈ l, isJsWs c = true) :
    filterNW l = [] := by
  simp only [filterNW, List.filter_eq_nil_iff]
  intro c hc
  simp [h c hc]

theorem filterNW_reverse (l : List Char) :
    filterNW l.reverse = (filterNW l).reverse := by
  simp [filterNW, List.filter_reverse]

theorem filterNW_dropWhile_ws (l : List Char) :
    filterNW (l.dropWhile isJsWs) = filterNW l := by
  conv_rhs => rw [← List.takeWhile_append_dropWhile (p := isJsWs) (l := l)]
  rw [filterNW_append, filterNW_ws_nil (fun c hc => List.mem_takeWhile_imp hc)]
  simp

theorem filterNW_trim (l : List Char) : filterNW (trim l) = filterNW l := by
  unfold trim
  rw [filterNW_reverse, filterNW_dropWhile_ws, filterNW_reverse,
    List.reverse_reverse, filterNW_dropWhile_ws]

theorem trim_length_le (l : List Char) : (trim l).length ≤ l.length := by
  unfold trim
  calc ((l.dropWhile isJsWs).reverse.dropWhile isJsWs).reverse.length
      ≤ (l.dropWhile isJsWs).reverse.length := by
        rw [List.length_reverse]
        exact (List.dropWhile_sublist ..).length_le
    _ ≤ l.length := by
        rw [List.length_reverse]
        exact (List.dropWhile_sublist ..).length_le

theorem NoWs.dropWhile_eq {l : List Char} (h : NoWs l) :
    l.dropWhile isJsWs = l := by
  cases l with
  | nil => rfl
  | cons c rest =>
    rw [List.dropWhile_cons_of_neg]
    simp [h c (by simp)]

theorem NoWs.reverse {l : List Char} (h : NoWs l) : NoWs l.reverse := by
  intro c hc
  exact h c (List.mem_reverse.mp hc)

theorem NoWs.trim_eq {l : List Char} (h : NoWs l) : trim l = l := by
  unfold trim
  rw [h.dropWhile_eq, (h.reverse).dropWhile_eq, List.reverse_reverse]

theorem filterNW_cons (c : Char) (l : List Char) :
    filterNW (c :: l) = if isJsWs c then filterNW l else c :: filterNW l := by
  by_cases h : isJsWs c <;> simp [filterNW, List.filter_cons, h]

/-! ### Content preservation of the segmenters -/

theorem sentAux_filterNW (l : List Char) : ∀ acc inSep,
    filterNW (sentAux l acc inSep).flatten = filterNW (acc ++ l) := by
  induction l with
  | nil => intro acc inSep; simp [sentAux]
  | cons c rest ih =>
    intro acc inSep
    by_cases hw : isJsWs c
    · by_cases hs : inSep
      · simp [sentAux, hw, hs, ih, filterNW_append, filterNW_cons]
      · by_cases he : endsSent acc
        · simp [sentAux, hw, hs, he, filterNW_append, filterNW_cons, ih [] true]
        · simp [sentAux, hw, hs, he, ih, filterNW_append, filterNW_cons]
    · simp [sentAux, hw, ih, filterNW_append, filterNW_cons]

theorem sentSplit_filterNW (l : List Char) :
    filterNW (sentSplit l).flatten = filterNW l := by
  simpa using sentAux_filterNW l [] false

theorem wsAux_filterNW (l : List Char) : ∀ acc inRun,
    filterNW (wsAux l acc inRun).flatten = filterNW (acc ++ l) := by
  induction l with
  | nil => intro acc inRun; cases inRun <;> simp [wsAux, filterNW]
  | cons c rest ih =>
    intro acc inRun
    by_cases hw : isJsWs c
    · simp [wsAux, hw, ih, filterNW_append, filterNW_cons]
    · by_cases hr : inRun
      · simp [wsAux, hw, hr, ih, filterNW_append, filterNW_cons]
      · simp [wsAux, hw, hr, ih, filterNW_append, filterNW_cons]

theorem wsSplit_filterNW (l : List Char) :
    filterNW (wsSplit l).flatten = filterNW l := by
  simpa using wsAux_filterNW l [] false

theorem pendBefore_ws {pend : List Char} (h : ∀ c ∈ pend, isJsWs c = true) :
    ∀ c ∈ pendBefore pend, isJsWs c = true := by
  intro c hc
  exact h c ((List.takeWhile_sublist _).mem hc)

theorem pendAfter_ws {pend : List Char} (h : ∀ c ∈ pend, isJsWs c = true) :
    ∀ c ∈ pendAfter pend, isJsWs c = true := by
  intro c hc
  unfold pendAfter at hc
  rw [List.mem_reverse] at hc
  exact h c (List.mem_reverse.mp ((List.takeWhile_sublist _).mem hc))

theorem paraAux_filterNW (l : List Char) : ∀ acc pend,
    (∀ c ∈ pend, isJsWs c = true) →
    filterNW (paraAux l acc pend).flatten = filterNW (acc ++ l) := by
  induction l with
  | nil =>
    intro acc pend hpend
    by_cases h2 : 2 ≤ pend.count '\n'
    · simp [paraAux, h2, filterNW_append, filterNW_ws_nil hpend,
        filterNW_ws_nil (pendBefore_ws hpend),
        filterNW_ws_nil (pendAfter_ws hpend)]
    · simp [paraAux, h2, filterNW_append, filterNW_ws_nil hpend]
  | cons c rest ih =>
    intro acc pend hpend
    by_cases hw : isJsWs c
    · have hpend2 : ∀ x ∈ pend ++ [c], isJsWs x = true := by
        intro x hx
        rcases List.mem_append.mp hx with h | h
        · exact hpend x h
        · rw [List.mem_singleton.mp h]; exact hw
      simp [paraAux, hw, ih _ _ hpend2, filterNW_append, filterNW_cons]
    · have hnil : ∀ x ∈ ([] : List Char), isJsWs x = true := by
        intro x hx; cases hx
      by_cases h2 : 2 ≤ pend.count '\n'
      · simp [paraAux, hw, h2, ih _ _ hnil, filterNW_append, filterNW_cons,
          filterNW_ws_nil (pendBefore_ws hpend),
          filterNW_ws_nil (pendAfter_ws hpend)]
      · simp [paraAux, hw, h2, ih _ _ hnil, filterNW_append, filterNW_cons,
          filterNW_ws_nil hpend]

theorem paraSplit_filterNW (l : List Char) :
    filterNW (paraSplit l).flatten = filterNW l := by
  simpa using paraAux_filterNW l [] [] (by intro c hc; cases hc)

theorem isJsWs_space : isJsWs ' ' = true := by decide

theorem filterNW_space : filterNW [' '] = [] := by decide

theorem wordsLoop_filterNW (maxSize : Nat) (ws : List (List Char)) : ∀ cur,
    filterNW (wordsLoop maxSize ws cur).flatten = filterNW (cur ++ ws.flatten) := by
  induction ws with
  | nil =>
    intro cur
    by_cases h : 0 < cur.length
    · simp [wordsLoop, h, filterNW_trim]
    · have hc : cur = [] := List.length_eq_zero.mp (by omega)
      simp [wordsLoop, h, hc, filterNW]
  | cons w rest ih =>
    intro cur
    by_cases h1 : maxSize < cur.length + w.length + 1
    · by_cases h2 : 0 < cur.length
      · simp [wordsLoop, h1, h2, ih, filterNW_append, filterNW_trim,
          List.append_assoc]
      · have hc : cur = [] := List.length_eq_zero.mp (by omega)
        subst hc
        have h1a : maxSize < w.length + 1 := by simpa using h1
        simp [wordsLoop, h1a, ih, filterNW_append]
    · by_cases h2 : 0 < cur.length
      · simp [wordsLoop, h1, h2, ih, filterNW_append, filterNW_cons,
          isJsWs_space, List.append_assoc]
      · simp [wordsLoop, h1, h2, ih, filterNW_append]

/-! ### Size structure of the paragraph split, and fuel adequacy -/

theorem paraAux_ne_nil (l : List Char) : ∀ acc pend, paraAux l acc pend ≠ [] := by
  induction l with
  | nil =>
    intro acc pend
    by_cases h2 : 2 ≤ pend.count '\n' <;> simp [paraAux, h2]
  | cons c rest ih =>
    intro acc pend
    by_cases hw : isJsWs c
    · simpa [paraAux, hw] using ih acc (pend ++ [c])
    · by_cases h2 : 2 ≤ pend.count '\n' <;> simp [paraAux, hw, h2, ih]

theorem paraAux_count_bound (l : List Char) : ∀ acc pend,
    2 * ((paraAux l acc pend).length - 1) ≤ pend.length + l.length := by
  induction l with
  | nil =>
    intro acc pend
    by_cases h2 : 2 ≤ pend.count '\n'
    · have := List.count_le_length (a := '\n') (l := pend)
      simp only [paraAux, h2, if_true]
      simp
      omega
    · simp [paraAux, h2]
  | cons c rest ih =>
    intro acc pend
    by_cases hw : isJsWs c
    · have h := ih acc (pend ++ [c])
      simp only [List.length_append, List.length_singleton] at h
      simp [paraAux, hw]
      omega
    · by_cases h2 : 2 ≤ pend.count '\n'
      · have hcnt := List.count_le_length (a := '\n') (l := pend)
        have hR := ih (pendAfter pend ++ [c]) []
        have hne := paraAux_ne_nil rest (pendAfter pend ++ [c]) []
        have hlen : 1 ≤ (paraAux rest (pendAfter pend ++ [c]) []).length :=
          List.length_pos.mpr hne
        simp only [List.length_nil] at hR
        simp [paraAux, hw, h2]
        omega
      · have h := ih (acc ++ (pend ++ [c])) []
        simp only [List.length_nil] at h
        simp [paraAux, hw, h2]
        omega

theorem takeWhile_ne_nl_length {l : List Char} (h2 : 2 ≤ l.count '\n') :
    (l.takeWhile (fun c => !(c == '\n'))).length + 2 ≤ l.length := by
  have hsplit := List.takeWhile_append_dropWhile
    (p := fun c : Char => !(c == '\n')) (l := l)
  have htcount : (l.takeWhile (fun c => !(c == '\n'))).count '\n' = 0 := by
    rw [List.count_eq_zero]
    intro hmem
    have := List.mem_takeWhile_imp hmem
    simp at this
  have hcount : l.count '\n'
      = (l.takeWhile (fun c => !(c == '\n'))).count '\n'
        + (l.dropWhile (fun c => !(c == '\n'))).count '\n' := by
    conv_lhs => rw [← hsplit]
    exact List.count_append ..
  have hdcount := List.count_le_length (a := '\n')
    (l := l.dropWhile (fun c => !(c == '\n')))
  have hlen : (l.takeWhile (fun c => !(c == '\n'))).length
      + (l.dropWhile (fun c => !(c == '\n'))).length = l.length := by
    conv_rhs => rw [← hsplit]
    exact (List.length_append ..).symm
  omega

theorem pendBefore_length {pend : List Char} (h2 : 2 ≤ pend.count '\n') :
    (pendBefore pend).length + 2 ≤ pend.length :=
  takeWhile_ne_nl_length h2

theorem pendAfter_length {pend : List Char} (h2 : 2 ≤ pend.count '\n') :
    (pendAfter pend).length + 2 ≤ pend.length := by
  have h2r : 2 ≤ pend.reverse.count '\n' := by
    rw [List.count_reverse]; exact h2
  have := takeWhile_ne_nl_length h2r
  simpa [pendAfter] using this

theorem paraAux_piece_bound (l : List Char) : ∀ acc pend p,
    p ∈ paraAux l acc pend →
    p.length + 2 * ((paraAux l acc pend).length - 1)
      ≤ acc.length + pend.length + l.length := by
  induction l with
  | nil =>
    intro acc pend p hp
    by_cases h2 : 2 ≤ pend.count '\n'
    · have hb := pendBefore_length h2
      have ha := pendAfter_length h2
      simp [paraAux, h2] at hp
      simp [paraAux, h2]
      rcases hp with hp | hp <;> subst hp <;>
        (try simp only [List.length_append]) <;> omega
    · simp [paraAux, h2] at hp
      subst hp
      simp [paraAux, h2]
  | cons c rest ih =>
    intro acc pend p hp
    by_cases hw : isJsWs c
    · have h := ih acc (pend ++ [c]) p (by simpa [paraAux, hw] using hp)
      simp only [List.length_append, List.length_singleton] at h
      simp [paraAux, hw]
      omega
    · by_cases h2 : 2 ≤ pend.count '\n'
      · have hb := pendBefore_length h2
        have ha := pendAfter_length h2
        have hcnt := paraAux_count_bound rest (pendAfter pend ++ [c]) []
        have hne := paraAux_ne_nil rest (pendAfter pend ++ [c]) []
        have hlen : 1 ≤ (paraAux rest (pendAfter pend ++ [c]) []).length :=
          List.length_pos.mpr hne
        simp only [List.length_nil] at hcnt
        simp [paraAux, hw, h2] at hp
        simp [paraAux, hw, h2]
        rcases hp with hp | hp
        · subst hp
          simp
          omega
        · have h := ih (pendAfter pend ++ [c]) [] p hp
          simp only [List.length_append, List.length_singleton,
            List.length_nil] at h
          omega
      · have h := ih (acc ++ (pend ++ [c])) [] p
          (by simpa [paraAux, hw, h2] using hp)
        simp only [List.length_append, List.length_singleton,
          List.length_nil] at h
        simp [paraAux, hw, h2]
        omega

theorem paraSplit_piece_lt {s p : List Char} (hp : p ∈ paraSplit s)
    (h : 1 < (paraSplit s).length) : p.length + 2 ≤ s.length := by
  have := paraAux_piece_bound s [] [] p hp
  simp only [List.length_nil] at this
  unfold paraSplit at h
  omega

theorem splitLongSentenceF_base {fuel : Nat} {s : List Char} {maxSize : Nat}
    (h : s.length ≤ maxSize) : splitLongSentenceF fuel s maxSize = [s] := by
  cases fuel <;> simp [splitLongSentenceF, h]

theorem splitLongSentenceF_fuel : ∀ fuel s maxSize, s.length ≤ fuel →
    splitLongSentenceF fuel s maxSize = splitLongSentenceF s.length s maxSize := by
  intro fuel
  induction fuel using Nat.strong_induction_on with
  | _ fuel ih =>
    intro s maxSize h
    cases fuel with
    | zero => rw [Nat.le_zero.mp h]
    | succ f =>
      by_cases hb : s.length ≤ maxSize
      · rw [splitLongSentenceF_base hb, splitLongSentenceF_base hb]
      · obtain ⟨m, hm⟩ : ∃ m, s.length = m + 1 := ⟨s.length - 1, by omega⟩
        rw [hm]
        simp only [splitLongSentenceF, if_neg hb]
        by_cases hpara : 1 < (paraSplit s).length
        · simp only [hpara, if_true]
          have hcong : ∀ p ∈ paraSplit s,
              splitLongSentenceF f p maxSize = splitLongSentenceF m p maxSize := by
            intro p hp
            have hplt := paraSplit_piece_lt hp hpara
            have h1 : splitLongSentenceF f p maxSize
                = splitLongSentenceF p.length p maxSize :=
              ih f (by omega) p maxSize (by omega)
            have h2 : splitLongSentenceF m p maxSize
                = splitLongSentenceF p.length p maxSize :=
              ih m (by omega) p maxSize (by omega)
            rw [h1, h2]
          simp only [List.flatMap]
          rw [List.map_congr_left hcong]
        · simp only [hpara, if_false]

theorem splitLongSentence_eq (s : List Char) (maxSize : Nat) :
    splitLongSentence s maxSize =
      if s.length ≤ maxSize then [s]
      else if 1 < (paraSplit s).length then
        (paraSplit s).flatMap (fun p => splitLongSentence p maxSize)
      else wordsLoop maxSize (wsSplit s) [] := by
  by_cases hb : s.length ≤ maxSize
  · rw [if_pos hb]
    exact splitLongSentenceF_base hb
  · rw [if_neg hb]
    obtain ⟨m, hm⟩ : ∃ m, s.length = m + 1 := ⟨s.length - 1, by omega⟩
    unfold splitLongSentence
    rw [hm]
    simp only [splitLongSentenceF, if_neg hb]
    by_cases hpara : 1 < (paraSplit s).length
    · simp only [hpara, if_true]
      have hcong : ∀ p ∈ paraSplit s,
          splitLongSentenceF m p maxSize = splitLongSentence p maxSize := by
        intro p hp
        have hplt := paraSplit_piece_lt hp hpara
        exact splitLongSentenceF_fuel m p maxSize (by omega)
      simp only [List.flatMap]
      rw [List.map_congr_left hcong]
      rfl
    · simp only [hpara, if_false]

/-! ### Content preservation of splitLongSentence and splitIntoChunks -/

theorem filterNW_flatMap (ps : List (List Char)) (g : List Char → List (List Char))
    (hg : ∀ p ∈ ps, filterNW (g p).flatten = filterNW p) :
    filterNW (ps.flatMap g).flatten = filterNW ps.flatten := by
  induction ps with
  | nil => simp [filterNW]
  | cons a rest ih =>
    simp only [List.flatMap_cons, List.flatten_append, List.flatten_cons,
      filterNW_append]
    rw [hg a (by simp), ih (fun p hp => hg p (by simp [hp]))]

theorem splitLongSentence_filterNW_aux : ∀ (n : Nat) (s : List Char) (maxSize : Nat),
    s.length ≤ n →
    filterNW (splitLongSentence s maxSize).flatten = filterNW s := by
  intro n
  induction n with
  | zero =>
    intro s maxSize h
    rw [splitLongSentence_eq, if_pos (by omega)]
    simp
  | succ n ih =>
    intro s maxSize h
    rw [splitLongSentence_eq]
    by_cases hb : s.length ≤ maxSize
    · simp [hb]
    · rw [if_neg hb]
      by_cases hpara : 1 < (paraSplit s).length
      · rw [if_pos hpara]
        have hg : ∀ p ∈ paraSplit s,
            filterNW (splitLongSentence p maxSize).flatten = filterNW p := by
          intro p hp
          exact ih p maxSize (by have := paraSplit_piece_lt hp hpara; omega)
        rw [filterNW_flatMap _ _ hg, paraSplit_filterNW]
      · rw [if_neg hpara, wordsLoop_filterNW]
        simpa using wsSplit_filterNW s

theorem splitLongSentence_filterNW (s : List Char) (maxSize : Nat) :
    filterNW (splitLongSentence s maxSize).flatten = filterNW s :=
  splitLongSentence_filterNW_aux s.length s maxSize le_rfl

theorem chunksLoop_filterNW (maxChunkSize : Nat) (sents : List (List Char)) :
    ∀ cur, filterNW (chunksLoop maxChunkSize sents cur).flatten
      = filterNW (cur ++ sents.flatten) := by
  induction sents with
  | nil =>
    intro cur
    by_cases h : 0 < cur.length
    · simp [chunksLoop, h, filterNW_trim]
    · have hc : cur = [] := List.length_eq_zero.mp (by omega)
      simp [chunksLoop, h, hc, filterNW]
  | cons s rest ih =>
    intro cur
    by_cases h1 : maxChunkSize < cur.length + s.length
    · by_cases h2 : 0 < cur.length
      · simp [chunksLoop, h1, h2, ih, filterNW_append, filterNW_trim,
          List.append_assoc]
      · have hc : cur = [] := List.length_eq_zero.mp (by omega)
        subst hc
        have h1a : maxChunkSize < s.length := by simpa using h1
        simp [chunksLoop, h1a, ih, filterNW_append,
          splitLongSentence_filterNW]
    · by_cases h2 : 0 < cur.length
      · simp [chunksLoop, h1, h2, ih, filterNW_append, filterNW_cons,
          isJsWs_space, List.append_assoc]
      · simp [chunksLoop, h1, h2, ih, filterNW_append]

theorem flatten_filter_pos (L : List (List Char)) :
    (L.filter (fun c => 0 < c.length)).flatten = L.flatten := by
  induction L with
  | nil => rfl
  | cons a rest ih =>
    by_cases h : 0 < a.length
    · simp [List.filter_cons, h, ih]
    · have ha : a = [] := List.length_eq_zero.mp (by omega)
      simp [List.filter_cons, h, ha, ih]

theorem filterNW_joinSp (L : List (List Char)) :
    filterNW (joinSp L) = filterNW L.flatten := by
  induction L with
  | nil => rfl
  | cons a rest ih =>
    cases rest with
    | nil => simp [joinSp]
    | cons b rest2 =>
      simp [joinSp, filterNW_append, filterNW_cons, isJsWs_space,
        List.append_assoc, ih]

theorem splitIntoChunks_filterNW (content : List Char) (maxChunkSize : Nat) :
    filterNW (splitIntoChunks content maxChunkSize).flatten = filterNW content := by
  unfold splitIntoChunks
  rw [flatten_filter_pos, chunksLoop_filterNW]
  simpa using sentSplit_filterNW content

/-- C2, counterexample: the whitespace-only input consisting of one space
is a non-empty text for which splitIntoChunks returns the empty chunk
sequence (the single all-whitespace sentence trims to the empty string
and is dropped by the final filter), contradicting the claim that split
returns a non-empty sequence for every non-empty input. -/
theorem split_whitespace_input_yields_no_chunks :
    (" ".toList ≠ ([] : List Char)) ∧ splitIntoChunks " ".toList 5 = [] := by
  constructor
  · decide
  · decide

/-- C2, amended: for every input text and every maxChunkChars, rejoining
the chunks returned by split with single spaces yields every
non-whitespace character of the original input exactly once and in the
original order; the returned sequence is non-empty whenever the input
contains at least one non-whitespace character (rather than whenever it
is merely non-empty: whitespace-only input yields no chunks). -/
theorem split_content_preservation_amended (content : List Char) (maxChunkSize : Nat) :
    filterNW (joinSp (splitIntoChunks content maxChunkSize)) = filterNW content
    ∧ ((∃ c ∈ content, ¬ isJsWs c = true) →
        splitIntoChunks content maxChunkSize ≠ []) := by
  constructor
  · rw [filterNW_joinSp, splitIntoChunks_filterNW]
  · rintro ⟨c, hc, hnw⟩ hnil
    have h1 : filterNW (joinSp (splitIntoChunks content maxChunkSize))
        = filterNW content := by
      rw [filterNW_joinSp, splitIntoChunks_filterNW]
    rw [hnil] at h1
    have hm : c ∈ filterNW content :=
      List.mem_filter.mpr ⟨hc, by simp [hnw]⟩
    rw [← h1] at hm
    simp [joinSp, filterNW] at hm

/-- Witness for the amended C2 at a concrete input with two sentences. -/
theorem split_content_preservation_amended_witness :
    filterNW (joinSp (splitIntoChunks "Hello. World.".toList 20))
      = filterNW "Hello. World.".toList
    ∧ splitIntoChunks "Hello. World.".toList 20 ≠ [] := by
  have h := split_content_preservation_amended "Hello. World.".toList 20
  exact ⟨h.1, h.2 (by decide)⟩

/-! ### The single-chunk case of small inputs -/

theorem sentAux_ne_nil (l : List Char) : ∀ acc inSep, sentAux l acc inSep ≠ [] := by
  induction l with
  | nil => intro acc inSep; simp [sentAux]
  | cons c rest ih =>
    intro acc inSep
    by_cases hw : isJsWs c
    · by_cases hs : inSep
      · simpa [sentAux, hw, hs] using ih acc true
      · by_cases he : endsSent acc
        · simp [sentAux, hw, hs, he]
        · simpa [sentAux, hw, hs, he] using ih (acc ++ [c]) false
    · simpa [sentAux, hw] using ih (acc ++ [c]) false

theorem sentAux_head_ne_nil (l : List Char) : ∀ acc, acc ≠ [] →
    ∃ h0 t, sentAux l acc false = h0 :: t ∧ h0 ≠ [] := by
  induction l with
  | nil =>
    intro acc ha
    exact ⟨acc, [], by simp [sentAux], ha⟩
  | cons c rest ih =>
    intro acc ha
    by_cases hw : isJsWs c
    · by_cases he : endsSent acc
      · exact ⟨acc, sentAux rest [] true, by simp [sentAux, hw, he], ha⟩
      · simpa [sentAux, hw, he] using ih (acc ++ [c]) (by simp)
    · simpa [sentAux, hw] using ih (acc ++ [c]) (by simp)

theorem sentSplit_head_ne_nil {content : List Char} (h : content ≠ []) :
    ∃ h0 t, sentSplit content = h0 :: t ∧ h0 ≠ [] := by
  cases content with
  | nil => cases h rfl
  | cons c rest =>
    have hstep : sentSplit (c :: rest) = sentAux rest [c] false := by
      by_cases hw : isJsWs c <;> simp [sentSplit, sentAux, hw, endsSent]
    rw [hstep]
    exact sentAux_head_ne_nil rest [c] (by simp)

theorem joinSp_cons_length (a : List Char) (r : List (List Char)) :
    a.length ≤ (joinSp (a :: r)).length := by
  cases r <;> simp [joinSp]

theorem sentAux_joinSp_length (l : List Char) : ∀ acc inSep,
    (inSep = true → acc = []) →
    (joinSp (sentAux l acc inSep)).length
      ≤ (if inSep = true then 0 else acc.length) + l.length := by
  induction l with
  | nil =>
    intro acc inSep hsep
    cases inSep with
    | false => simp [sentAux, joinSp]
    | true => simp [sentAux, joinSp, hsep rfl]
  | cons c rest ih =>
    intro acc inSep hsep
    by_cases hs : inSep
    · subst hs
      have hacc := hsep rfl
      subst hacc
      by_cases hw : isJsWs c
      · have h := ih [] true (fun _ => rfl)
        simp at h
        simp [sentAux, hw]
        omega
      · have h := ih [c] false (by simp)
        simp at h
        simp [sentAux, hw, endsSent]
        omega
    · simp only [Bool.not_eq_true] at hs
      subst hs
      by_cases hw : isJsWs c
      · by_cases he : endsSent acc
        · have hne := sentAux_ne_nil rest [] true
          have h := ih [] true (fun _ => rfl)
          simp at h
          obtain ⟨r0, rt, hr⟩ : ∃ r0 rt, sentAux rest [] true = r0 :: rt := by
            cases hrr : sentAux rest [] true with
            | nil => cases hne hrr
            | cons r0 rt => exact ⟨r0, rt, rfl⟩
          rw [hr] at h
          simp [sentAux, hw, he, hr, joinSp]
          omega
        · have h := ih (acc ++ [c]) false (by simp)
          simp at h
          simp [sentAux, hw, he]
          omega
      · have h := ih (acc ++ [c]) false (by simp)
        simp at h
        simp [sentAux, hw]
        omega

theorem sentSplit_joinSp_length (content : List Char) :
    (joinSp (sentSplit content)).length ≤ content.length := by
  simpa using sentAux_joinSp_length content [] false (by intro h; cases h)

theorem joinSp_join_step (cur s : List Char) (rest : List (List Char)) :
    joinSp ((cur ++ [' '] ++ s) :: rest) = joinSp (cur :: s :: rest) := by
  cases rest with
  | nil => simp [joinSp]
  | cons b rest2 => simp [joinSp, List.append_assoc]

theorem chunksLoop_small (maxChunkSize : Nat) (sents : List (List Char)) :
    ∀ cur, 0 < cur.length →
    cur.length + (joinSp sents).length + (if sents = [] then 0 else 1)
      ≤ maxChunkSize →
    chunksLoop maxChunkSize sents cur = [trim (joinSp (cur :: sents))] := by
  induction sents with
  | nil =>
    intro cur hcur hle
    simp [chunksLoop, hcur, joinSp]
  | cons s rest ih =>
    intro cur hcur hle
    simp only [if_neg (List.cons_ne_nil s rest)] at hle
    have hs_le : s.length ≤ (joinSp (s :: rest)).length := joinSp_cons_length s rest
    have hcond : ¬ maxChunkSize < cur.length + s.length := by omega
    have hrest : cur.length + 1 + s.length + (joinSp rest).length
        + (if rest = [] then 0 else 1) ≤ maxChunkSize := by
      cases rest with
      | nil => simp only [joinSp, List.length_nil] at hle ⊢; simp; omega
      | cons b rest2 =>
        simp only [joinSp, List.length_append, List.length_cons,
          List.length_nil] at hle ⊢
        simp only [if_neg (List.cons_ne_nil b rest2)] at hle ⊢
        omega
    have hgoal := ih (cur ++ [' '] ++ s)
      (by simp)
      (by simp only [List.length_append, List.length_singleton]; omega)
    simp only [chunksLoop, if_neg hcond, if_pos hcur]
    rw [hgoal, joinSp_join_step]

/-- C9: for every input text containing at least one non-whitespace
character whose total length is at most maxChunkChars, split returns
exactly one chunk, equal to the sentence segmentation rejoined with
single spaces and trimmed of surrounding whitespace. -/
theorem small_input_single_chunk (content : List Char) (maxChunkSize : Nat)
    (hnw : ∃ c ∈ content, ¬ isJsWs c = true)
    (hlen : content.length ≤ maxChunkSize) :
    splitIntoChunks content maxChunkSize = [trim (joinSp (sentSplit content))] := by
  obtain ⟨c0, hc0, hnw0⟩ := hnw
  have hcne : content ≠ [] := by rintro rfl; cases hc0
  obtain ⟨h0, t, hsent, hh0⟩ := sentSplit_head_ne_nil hcne
  have hjlen : (joinSp (sentSplit content)).length ≤ content.length :=
    sentSplit_joinSp_length content
  have hj0 : h0.length ≤ (joinSp (h0 :: t)).length := joinSp_cons_length h0 t
  have hjlen2 : (joinSp (h0 :: t)).length ≤ maxChunkSize := by
    rw [hsent] at hjlen; omega
  have hcond1 : ¬ maxChunkSize < List.length ([] : List Char) + h0.length := by
    simp only [List.length_nil, Nat.zero_add]
    omega
  have hstep : chunksLoop maxChunkSize (h0 :: t) []
      = chunksLoop maxChunkSize t h0 := by
    simp only [chunksLoop, if_neg hcond1]
    simp
  have h0pos : 0 < h0.length := List.length_pos.mpr hh0
  have hsmall : h0.length + (joinSp t).length + (if t = [] then 0 else 1)
      ≤ maxChunkSize := by
    cases t with
    | nil => simp only [joinSp] at hjlen2 ⊢; simp; omega
    | cons b t2 =>
      simp only [joinSp, List.length_append, List.length_cons,
        List.length_singleton] at hjlen2 ⊢
      simp only [if_neg (List.cons_ne_nil b t2)]
      omega
  have hloop := chunksLoop_small maxChunkSize t h0 h0pos hsmall
  unfold splitIntoChunks
  rw [hsent, hstep, hloop, ← hsent]
  have hne : 0 < (trim (joinSp (sentSplit content))).length := by
    by_contra hle
    have hz : trim (joinSp (sentSplit content)) = [] :=
      List.length_eq_zero.mp (by omega)
    have hf : filterNW (trim (joinSp (sentSplit content))) = filterNW content := by
      rw [filterNW_trim, filterNW_joinSp, sentSplit_filterNW]
    rw [hz] at hf
    have hm : c0 ∈ filterNW content :=
      List.mem_filter.mpr ⟨hc0, by simp [hnw0]⟩
    rw [← hf] at hm
    simp [filterNW] at hm
  simp [List.filter_cons, hne]

/-- Witness for C9 at a concrete two-sentence input under its budget. -/
theorem small_input_single_chunk_witness :
    splitIntoChunks "a. b".toList 10 = [trim (joinSp (sentSplit "a. b".toList))] :=
  small_input_single_chunk "a. b".toList 10 (by decide) (by decide)

/-! ### Chunk size bounds -/

theorem wsAux_noWs (l : List Char) : ∀ acc inRun, NoWs acc →
    ∀ p ∈ wsAux l acc inRun, NoWs p := by
  induction l with
  | nil =>
    intro acc inRun hacc p hp
    cases inRun with
    | true =>
      simp [wsAux] at hp
      rcases hp with hp | hp
      · exact hp ▸ hacc
      · subst hp; intro x hx; cases hx
    | false =>
      simp [wsAux] at hp
      exact hp ▸ hacc
  | cons c rest ih =>
    intro acc inRun hacc p hp
    by_cases hw : isJsWs c
    · simp only [wsAux, if_pos hw] at hp
      exact ih acc true hacc p hp
    · have haccc : NoWs (acc ++ [c]) := by
        intro x hx
        rcases List.mem_append.mp hx with h | h
        · exact hacc x h
        · rw [List.mem_singleton.mp h]; simp [hw]
      have hc1 : NoWs [c] := by
        intro x hx; rw [List.mem_singleton.mp hx]; simp [hw]
      by_cases hr : inRun
      · subst hr
        simp [wsAux, hw] at hp
        rcases hp with hp | hp
        · exact hp ▸ hacc
        · exact ih [c] false hc1 p hp
      · simp only [Bool.not_eq_true] at hr
        subst hr
        simp [wsAux, hw] at hp
        exact ih (acc ++ [c]) false haccc p hp

theorem wsSplit_noWs (l : List Char) : ∀ p ∈ wsSplit l, NoWs p :=
  wsAux_noWs l [] false (by intro x hx; cases hx)

theorem wordsLoop_bound (maxSize : Nat) (ws : List (List Char)) : ∀ cur,
    (∀ w ∈ ws, NoWs w) → (cur.length ≤ maxSize ∨ NoWs cur) →
    ∀ c ∈ wordsLoop maxSize ws cur, c.length ≤ maxSize ∨ NoWs c := by
  induction ws with
  | nil =>
    intro cur hws hcur c hc
    by_cases h : 0 < cur.length
    · simp only [wordsLoop, if_pos h, List.mem_singleton] at hc
      subst hc
      rcases hcur with hcur | hcur
      · exact Or.inl (le_trans (trim_length_le cur) hcur)
      · exact Or.inr (by rw [hcur.trim_eq]; exact hcur)
    · simp [wordsLoop, h] at hc
  | cons w rest ih =>
    intro cur hws hcur c hc
    have hwno : NoWs w := hws w (by simp)
    have hrest : ∀ x ∈ rest, NoWs x := fun x hx => hws x (by simp [hx])
    by_cases h1 : maxSize < cur.length + w.length + 1
    · by_cases h2 : 0 < cur.length
      · simp only [wordsLoop, if_pos h1, if_pos h2, List.mem_cons] at hc
        rcases hc with hc | hc
        · subst hc
          rcases hcur with hcur | hcur
          · exact Or.inl (le_trans (trim_length_le cur) hcur)
          · exact Or.inr (by rw [hcur.trim_eq]; exact hcur)
        · exact ih w hrest (Or.inr hwno) c hc
      · simp only [wordsLoop, if_pos h1, if_neg h2, List.mem_cons] at hc
        rcases hc with hc | hc
        · exact Or.inr (hc ▸ hwno)
        · exact ih cur hrest hcur c hc
    · simp only [wordsLoop, if_neg h1] at hc
      refine ih _ hrest (Or.inl ?_) c hc
      by_cases h2 : 0 < cur.length
      · simp only [if_pos h2, List.length_append, List.length_singleton]
        omega
      · simp only [if_neg h2, List.length_append, List.length_nil]
        omega

theorem splitLongSentence_bound_aux : ∀ (n : Nat) (s : List Char) (maxSize : Nat),
    s.length ≤ n →
    ∀ c ∈ splitLongSentence s maxSize, c.length ≤ maxSize ∨ NoWs c := by
  intro n
  induction n with
  | zero =>
    intro s maxSize h c hc
    rw [splitLongSentence_eq, if_pos (by omega)] at hc
    rw [List.mem_singleton.mp hc]
    exact Or.inl (by omega)
  | succ n ih =>
    intro s maxSize h c hc
    rw [splitLongSentence_eq] at hc
    by_cases hb : s.length ≤ maxSize
    · rw [if_pos hb] at hc
      rw [List.mem_singleton.mp hc]
      exact Or.inl hb
    · rw [if_neg hb] at hc
      by_cases hpara : 1 < (paraSplit s).length
      · rw [if_pos hpara] at hc
        obtain ⟨p, hp, hcp⟩ := List.mem_flatMap.mp hc
        exact ih p maxSize
          (by have := paraSplit_piece_lt hp hpara; omega) c hcp
      · rw [if_neg hpara] at hc
        exact wordsLoop_bound maxSize (wsSplit s) [] (wsSplit_noWs s)
          (Or.inl (by simp)) c hc

theorem splitLongSentence_bound (s : List Char) (maxSize : Nat) :
    ∀ c ∈ splitLongSentence s maxSize, c.length ≤ maxSize ∨ NoWs c :=
  splitLongSentence_bound_aux s.length s maxSize le_rfl

theorem chunksLoop_bound (maxChunkSize : Nat) (S : List (List Char))
    (sents : List (List Char)) : ∀ cur,
    (∀ s ∈ sents, s ∈ S) →
    (cur.length ≤ maxChunkSize + 1 ∨ ∃ s ∈ S, trim cur = trim s) →
    ∀ c ∈ chunksLoop maxChunkSize sents cur,
      c.length ≤ maxChunkSize + 1 ∨ (∃ s ∈ S, c = trim s) ∨ NoWs c := by
  induction sents with
  | nil =>
    intro cur hS hcur c hc
    by_cases h : 0 < cur.length
    · simp only [chunksLoop, if_pos h, List.mem_singleton] at hc
      subst hc
      rcases hcur with hcur | ⟨s, hs, htr⟩
      · exact Or.inl (le_trans (trim_length_le cur) hcur)
      · exact Or.inr (Or.inl ⟨s, hs, htr⟩)
    · simp [chunksLoop, h] at hc
  | cons s rest ih =>
    intro cur hS hcur c hc
    have hsS : s ∈ S := hS s (by simp)
    have hrS : ∀ x ∈ rest, x ∈ S := fun x hx => hS x (by simp [hx])
    by_cases h1 : maxChunkSize < cur.length + s.length
    · by_cases h2 : 0 < cur.length
      · simp only [chunksLoop, if_pos h1, if_pos h2, List.mem_cons] at hc
        rcases hc with hc | hc
        · subst hc
          rcases hcur with hcur | ⟨s2, hs2, htr⟩
          · exact Or.inl (le_trans (trim_length_le cur) hcur)
          · exact Or.inr (Or.inl ⟨s2, hs2, htr⟩)
        · exact ih s hrS (Or.inr ⟨s, hsS, rfl⟩) c hc
      · simp only [chunksLoop, if_pos h1, if_neg h2, List.mem_append] at hc
        rcases hc with hc | hc
        · rcases splitLongSentence_bound s maxChunkSize c hc with hb | hb
          · exact Or.inl (by omega)
          · exact Or.inr (Or.inr hb)
        · exact ih [] hrS (Or.inl (by simp)) c hc
    · simp only [chunksLoop, if_neg h1] at hc
      refine ih _ hrS (Or.inl ?_) c hc
      by_cases h2 : 0 < cur.length
      · simp only [if_pos h2, List.length_append, List.length_singleton]
        omega
      · simp only [if_neg h2, List.length_append, List.length_nil]
        omega

/-- C1, counterexample: with budget 7 the two sentences of the input
text get greedily joined because the overflow test of line 337 does not
count the joining space, so split returns one chunk of length 8 that is
not a single sentence (the segmentation has two sentences, each within
the budget), contradicting the claim that only atomic units may exceed
the budget. -/
theorem split_budget_violated_by_joined_sentences :
    splitIntoChunks "abc. de.".toList 7 = ["abc. de.".toList]
    ∧ 7 < "abc. de.".toList.length
    ∧ (sentSplit "abc. de.".toList).length = 2
    ∧ (∀ s ∈ sentSplit "abc. de.".toList, s.length ≤ 7) := by
  refine ⟨by decide, by decide, by decide, by decide⟩

/-- C1, amended: every chunk returned by split has length at most
maxChunkChars plus one (the joining space is not counted by the overflow
test), except chunks that are a single trimmed sentence of the
segmentation (an oversized sentence is kept whole, with no fallback,
whenever it arrives at a nonempty accumulator and also at the tail of
the loop) or a single whitespace-free word. -/
theorem split_chunk_size_amended (content : List Char) (maxChunkSize : Nat) :
    ∀ c ∈ splitIntoChunks content maxChunkSize,
      c.length ≤ maxChunkSize + 1
      ∨ (∃ s ∈ sentSplit content, c = trim s)
      ∨ NoWs c := by
  intro c hc
  unfold splitIntoChunks at hc
  exact chunksLoop_bound maxChunkSize (sentSplit content) (sentSplit content)
    [] (fun s hs => hs) (Or.inl (by simp)) c (List.mem_of_mem_filter hc)

/-- Witness for the amended C1 at the oversized joined chunk of the
counterexample input. -/
theorem split_chunk_size_amended_witness :
    ("abc. de.".toList).length ≤ 7 + 1
    ∨ (∃ s ∈ sentSplit "abc. de.".toList, "abc. de.".toList = trim s)
    ∨ NoWs "abc. de.".toList :=
  split_chunk_size_amended "abc. de.".toList 7 "abc. de.".toList (by decide)


/-! ### Fallback behavior for oversized sentences -/

theorem wordsLoop_self_mem (maxSize : Nat) (rest : List (List Char))
    (w : List Char) (hno : NoWs w) (hlen : maxSize < w.length) :
    w ∈ wordsLoop maxSize rest w := by
  cases rest with
  | nil =>
    have h0 : 0 < w.length := by omega
    simp [wordsLoop, h0, hno.trim_eq]
  | cons r rest2 =>
    have h0 : 0 < w.length := by omega
    have h1 : maxSize < w.length + r.length + 1 := by omega
    simp [wordsLoop, h1, h0, hno.trim_eq]

theorem wordsLoop_mem (maxSize : Nat) (ws : List (List Char)) : ∀ cur,
    (∀ x ∈ ws, NoWs x) → ∀ w ∈ ws, maxSize < w.length →
    w ∈ wordsLoop maxSize ws cur := by
  induction ws with
  | nil => intro cur h w hw; cases hw
  | cons h0 rest ih =>
    intro cur hno w hw hlen
    have hh0 : NoWs h0 := hno h0 (by simp)
    have hrest : ∀ x ∈ rest, NoWs x := fun x hx => hno x (by simp [hx])
    rcases List.mem_cons.mp hw with hw | hw
    · subst hw
      have h1 : maxSize < cur.length + w.length + 1 := by omega
      by_cases h2 : 0 < cur.length
      · simp only [wordsLoop, if_pos h1, if_pos h2]
        exact List.mem_cons_of_mem _ (wordsLoop_self_mem maxSize rest w hh0 hlen)
      · simp only [wordsLoop, if_pos h1, if_neg h2]
        exact List.mem_cons_self ..
    · by_cases h1 : maxSize < cur.length + h0.length + 1
      · by_cases h2 : 0 < cur.length
        · simp only [wordsLoop, if_pos h1, if_pos h2]
          exact List.mem_cons_of_mem _ (ih h0 hrest w hw hlen)
        · simp only [wordsLoop, if_pos h1, if_neg h2]
          exact List.mem_cons_of_mem _ (ih cur hrest w hw hlen)
      · simp only [wordsLoop, if_neg h1]
        exact ih _ hrest w hw hlen

/-- C5, counterexample: with budget 4 the oversized second sentence of
the input arrives while a chunk is open, so split keeps it whole instead
of falling back to word splitting, although each of its words fits the
budget; this contradicts the claim that the fallback happens whenever a
single sentence alone exceeds maxChunkChars. -/
theorem oversized_sentence_not_split_midstream :
    splitIntoChunks "Hi. aa bb".toList 4 = ["Hi.".toList, "aa bb".toList]
    ∧ 4 < ("aa bb".toList).length
    ∧ (∀ w ∈ wsSplit "aa bb".toList, w.length ≤ 4) := by
  refine ⟨by decide, by decide, by decide⟩

/-- C5, amended: when a single sentence exceeding maxChunkChars is
encountered while the accumulator is empty, split falls back to
splitting it first by blank-line paragraph breaks and recursively, and
otherwise by whitespace-delimited words greedily packed under the
budget; a single word that itself exceeds the budget is emitted as its
own oversized chunk, never truncated (every emitted chunk either fits
the budget or is a whole whitespace-free word).  An oversized sentence
encountered while a chunk is already open is emitted whole with no
fallback. -/
theorem long_sentence_fallback_amended (s : List Char) (maxSize : Nat)
    (hs : maxSize < s.length) :
    (splitLongSentence s maxSize =
      if 1 < (paraSplit s).length then
        (paraSplit s).flatMap (fun p => splitLongSentence p maxSize)
      else wordsLoop maxSize (wsSplit s) [])
    ∧ ((paraSplit s).length ≤ 1 →
        ∀ w ∈ wsSplit s, maxSize < w.length →
          w ∈ splitLongSentence s maxSize)
    ∧ (∀ c ∈ splitLongSentence s maxSize,
        c.length ≤ maxSize ∨ NoWs c) := by
  refine ⟨by rw [splitLongSentence_eq, if_neg (by omega)], ?_, ?_⟩
  · intro hpara w hw hwlen
    rw [splitLongSentence_eq, if_neg (by omega), if_neg (by omega)]
    exact wordsLoop_mem maxSize (wsSplit s) [] (wsSplit_noWs s) w hw hwlen
  · exact splitLongSentence_bound s maxSize

/-- Witness for the amended C5 at a concrete sentence holding one
oversized word. -/
theorem long_sentence_fallback_amended_witness :
    (splitLongSentence "aaaaaa bb".toList 4 =
      if 1 < (paraSplit "aaaaaa bb".toList).length then
        (paraSplit "aaaaaa bb".toList).flatMap (fun p => splitLongSentence p 4)
      else wordsLoop 4 (wsSplit "aaaaaa bb".toList) [])
    ∧ ((paraSplit "aaaaaa bb".toList).length ≤ 1 →
        ∀ w ∈ wsSplit "aaaaaa bb".toList, 4 < w.length →
          w ∈ splitLongSentence "aaaaaa bb".toList 4)
    ∧ (∀ c ∈ splitLongSentence "aaaaaa bb".toList 4,
        c.length ≤ 4 ∨ NoWs c) :=
  long_sentence_fallback_amended "aaaaaa bb".toList 4 (by decide)

/-! ### The hierarchical summarizer -/

theorem chunkPromptsFrom_length (filename : String) (n : Nat) :
    ∀ (cs : List (List Char)) (i : Nat),
    (chunkPromptsFrom filename n i cs).length = cs.length := by
  intro cs
  induction cs with
  | nil => intro i; rfl
  | cons c rest ih => intro i; simp [chunkPromptsFrom, ih]

theorem chunkLoop_ok (ask : LLM) (filename : String) (n : Nat)
    (hok : ∀ p, ∃ s, ask p = .ok s) :
    ∀ (cs : List (List Char)) (i : Nat),
    chunkLoop ask filename n cs i
      = (chunkPromptsFrom filename n i cs,
         .ok (partsFrom ask filename n i cs)) := by
  intro cs
  induction cs with
  | nil => intro i; rfl
  | cons c rest ih =>
    intro i
    obtain ⟨s, hs⟩ := hok (chunkPrompt filename i n c)
    simp [chunkLoop, chunkPromptsFrom, partsFrom, hs, okD, ih (i + 1),
      Except.map]

/-- C3: for input whose token estimate exceeds the budget, summarizeDoc
takes the chunked path, the splitter is invoked with character budget
tokenBudget times four (mirroring MAX_CHUNK_SIZE equal to
MAX_INPUT_TOKENS times four), and when every generation call succeeds
the prompt log consists of exactly one prompt per chunk, in chunk order,
followed by one final synthesis prompt whose text carries all the
Part-labelled partial summaries in chunk order. -/
theorem summarize_chunked_call_count (ask : LLM) (content : String)
    (filename : String) (tokenBudget : Nat)
    (hbig : tokenBudget < estimateTokens content)
    (hok : ∀ p, ∃ s, ask p = .ok s) :
    MAX_CHUNK_SIZE = MAX_INPUT_TOKENS * 4
    ∧ summarizeDoc ask content tokenBudget filename
        = summarizeInChunks ask content filename tokenBudget
    ∧ ∀ chunks, chunks = splitIntoChunks content.toList (tokenBudget * 4) →
        summarizeInChunks ask content filename tokenBudget
          = (chunkPromptsFrom filename chunks.length 0 chunks
              ++ [finalPromptOf filename
                    (partsFrom ask filename chunks.length 0 chunks)],
             ask (finalPromptOf filename
                    (partsFrom ask filename chunks.length 0 chunks)))
        ∧ (summarizeInChunks ask content filename tokenBudget).1.length
            = chunks.length + 1 := by
  refine ⟨rfl, ?_, ?_⟩
  · unfold summarizeDoc
    rw [if_neg (by omega)]
  · rintro chunks rfl
    have hloop := chunkLoop_ok ask filename
      (splitIntoChunks content.toList (tokenBudget * 4)).length hok
      (splitIntoChunks content.toList (tokenBudget * 4)) 0
    constructor
    · simp only [summarizeInChunks]
      rw [hloop]
    · simp only [summarizeInChunks]
      rw [hloop]
      simp [chunkPromptsFrom_length]

/-- Witness for C3: a two-sentence input over a budget of two tokens,
under an oracle that always succeeds, issues three calls. -/
theorem summarize_chunked_call_count_witness :
    (summarizeInChunks (fun _ => .ok "S") "aaaa. bbbb." "f" 2).1.length
      = (splitIntoChunks "aaaa. bbbb.".toList (2 * 4)).length + 1 := by
  have h := summarize_chunked_call_count (fun _ => .ok "S") "aaaa. bbbb." "f" 2
    (by decide) (fun p => ⟨"S", rfl⟩)
  exact (h.2.2 _ rfl).2

/-- C4: for input whose token estimate, the ceiling of the character
count divided by four, is within the budget, summarizeDoc issues exactly
one generation call, with the single-chunk prompt, and returns the
result of that call unmodified. -/
theorem summarize_single_call (ask : LLM) (content : String)
    (tokenBudget : Nat) (filename : String)
    (hsmall : estimateTokens content ≤ tokenBudget) :
    summarizeDoc ask content tokenBudget filename
      = ([singleChunkPrompt content], ask (singleChunkPrompt content))
    ∧ estimateTokens content = (content.length + 3) / 4
    ∧ content.length ≤ 4 * estimateTokens content
    ∧ 4 * estimateTokens content < content.length + 4 := by
  refine ⟨?_, rfl, ?_, ?_⟩
  · unfold summarizeDoc
    rw [if_pos hsmall]
    rfl
  · unfold estimateTokens
    omega
  · unfold estimateTokens
    omega

/-- Witness for C4 at a ten-character input under a budget of one
hundred tokens. -/
theorem summarize_single_call_witness :
    summarizeDoc (fun p => .ok p) "short text" 100 "doc"
      = ([singleChunkPrompt "short text"], .ok (singleChunkPrompt "short text"))
    ∧ estimateTokens "short text" = ("short text".length + 3) / 4
    ∧ "short text".length ≤ 4 * estimateTokens "short text"
    ∧ 4 * estimateTokens "short text" < "short text".length + 4 :=
  summarize_single_call (fun p => .ok p) "short text" 100 "doc" (by decide)

theorem chunkLoop_cons_error {ask : LLM} {filename : String} {n : Nat}
    {c : List Char} {i : Nat} {e : String}
    (hask : ask (chunkPrompt filename i n c) = .error e)
    (rest : List (List Char)) :
    chunkLoop ask filename n (c :: rest) i
      = ([chunkPrompt filename i n c], .error e) := by
  simp [chunkLoop, hask]

theorem chunkLoop_cons_ok {ask : LLM} {filename : String} {n : Nat}
    {c : List Char} {i : Nat} {s : String}
    (hask : ask (chunkPrompt filename i n c) = .ok s)
    (rest : List (List Char)) :
    chunkLoop ask filename n (c :: rest) i
      = (chunkPrompt filename i n c :: (chunkLoop ask filename n rest (i + 1)).1,
         (chunkLoop ask filename n rest (i + 1)).2.map
           (fun l => partLabel i s :: l)) := by
  conv_lhs => rw [chunkLoop]
  rw [hask]

theorem chunkLoop_fst_ne_nil (ask : LLM) (filename : String) (n : Nat)
    (c : List Char) (rest : List (List Char)) (i : Nat) :
    (chunkLoop ask filename n (c :: rest) i).1 ≠ [] := by
  cases hask : ask (chunkPrompt filename i n c) <;>
    simp [chunkLoop, hask]

theorem chunkLoop_spec (ask : LLM) (filename : String) (n : Nat) :
    ∀ (cs : List (List Char)) (i : Nat),
    (∀ q ∈ (chunkLoop ask filename n cs i).1.dropLast, ∃ s, ask q = .ok s)
    ∧ (∀ e, (chunkLoop ask filename n cs i).2 = .error e →
        ∃ p, (chunkLoop ask filename n cs i).1.getLast? = some p
          ∧ ask p = .error e)
    ∧ (∀ l, (chunkLoop ask filename n cs i).2 = .ok l →
        ∀ q ∈ (chunkLoop ask filename n cs i).1, ∃ s, ask q = .ok s) := by
  intro cs
  induction cs with
  | nil =>
    intro i
    refine ⟨by simp [chunkLoop], by simp [chunkLoop], by simp [chunkLoop]⟩
  | cons c rest ih =>
    intro i
    cases hask : ask (chunkPrompt filename i n c) with
    | error e0 =>
      rw [chunkLoop_cons_error hask rest]
      refine ⟨?_, ?_, ?_⟩
      · simp
      · intro e he
        injection he with h
        subst h
        exact ⟨chunkPrompt filename i n c, by simp, hask⟩
      · intro l hl
        cases hl
    | ok s =>
      obtain ⟨ih1, ih2, ih3⟩ := ih (i + 1)
      rw [chunkLoop_cons_ok hask rest]
      cases rest with
      | nil =>
        refine ⟨?_, ?_, ?_⟩
        · simp [chunkLoop]
        · intro e he
          simp [chunkLoop, Except.map] at he
        · intro l hl q hq
          simp [chunkLoop] at hq
          exact hq ▸ ⟨s, hask⟩
      | cons c2 rest2 =>
        have hne := chunkLoop_fst_ne_nil ask filename n c2 rest2 (i + 1)
        obtain ⟨q0, L1, hL1⟩ := List.exists_cons_of_ne_nil hne
        refine ⟨?_, ?_, ?_⟩
        · intro q hq
          simp only [hL1, List.dropLast_cons₂, List.mem_cons] at hq
          rcases hq with hq | hq
          · exact hq ▸ ⟨s, hask⟩
          · exact ih1 q (by rw [hL1]; exact hq)
        · intro e he
          simp only at he
          cases hr : (chunkLoop ask filename n (c2 :: rest2) (i + 1)).2 with
          | error e1 =>
            obtain ⟨p, hp1, hp2⟩ := ih2 e1 hr
            rw [hr] at he
            simp only [Except.map] at he
            cases he
            refine ⟨p, ?_, hp2⟩
            simp only [hL1, List.getLast?_cons_cons]
            rw [hL1] at hp1
            exact hp1
          | ok l =>
            rw [hr] at he
            simp [Except.map] at he
        · intro l hl q hq
          simp only at hl hq
          cases hr : (chunkLoop ask filename n (c2 :: rest2) (i + 1)).2 with
          | error e1 =>
            rw [hr] at hl
            simp [Except.map] at hl
          | ok l1 =>
            rw [List.mem_cons] at hq
            rcases hq with hq | hq
            · exact hq ▸ ⟨s, hask⟩
            · exact ih3 l1 hr q hq

/-- C6: within one chunked summarization run every issued generation
call except possibly the last one succeeded (the loop aborts at the
first failure, so there is no retry and no call after a failure), a
failing run returns exactly the underlying error of the last issued
call with no partial-result fallback, and a successful run means every
issued call succeeded. -/
theorem chunked_failure_aborts (ask : LLM) (content filename : String)
    (tokenBudget : Nat) :
    (∀ q ∈ (summarizeInChunks ask content filename tokenBudget).1.dropLast,
      ∃ s, ask q = .ok s)
    ∧ (∀ e, (summarizeInChunks ask content filename tokenBudget).2 = .error e →
        ∃ p, (summarizeInChunks ask content filename tokenBudget).1.getLast?
            = some p ∧ ask p = .error e)
    ∧ (∀ r, (summarizeInChunks ask content filename tokenBudget).2 = .ok r →
        ∀ q ∈ (summarizeInChunks ask content filename tokenBudget).1,
          ∃ s, ask q = .ok s) := by
  obtain ⟨h1, h2, h3⟩ := chunkLoop_spec ask filename
    (splitIntoChunks content.toList (tokenBudget * 4)).length
    (splitIntoChunks content.toList (tokenBudget * 4)) 0
  cases hres : (chunkLoop ask filename
      (splitIntoChunks content.toList (tokenBudget * 4)).length
      (splitIntoChunks content.toList (tokenBudget * 4)) 0).2 with
  | error e0 =>
    refine ⟨?_, ?_, ?_⟩
    · intro q hq
      apply h1
      simpa only [summarizeInChunks, hres] using hq
    · intro e he
      simp only [summarizeInChunks, hres] at he ⊢
      cases he
      exact h2 e0 hres
    · intro r hr
      simp only [summarizeInChunks, hres] at hr
      cases hr
  | ok partials =>
    refine ⟨?_, ?_, ?_⟩
    · intro q hq
      simp only [summarizeInChunks, hres, List.dropLast_concat] at hq
      exact h3 partials hres q hq
    · intro e he
      simp only [summarizeInChunks, hres] at he ⊢
      exact ⟨finalPromptOf filename partials, List.getLast?_concat _, he⟩
    · intro r hr q hq
      simp only [summarizeInChunks, hres, List.mem_append,
        List.mem_singleton] at hq
      rcases hq with hq | hq
      · exact h3 partials hres q hq
      · subst hq
        simp only [summarizeInChunks, hres] at hr
        exact ⟨r, hr⟩

/-- Witness for C6: under an oracle failing on the first per-chunk
prompt, the chunked run returns that underlying error as the error of
its last issued call. -/
theorem chunked_failure_aborts_witness :
    ∃ p, (summarizeInChunks
        (fun q => if q = chunkPrompt "f" 0 2 "aaaa.".toList
          then .error "boom" else .ok "S") "aaaa. bbbb." "f" 2).1.getLast?
        = some p
      ∧ (fun q => if q = chunkPrompt "f" 0 2 "aaaa.".toList
          then (.error "boom" : Except String String) else .ok "S") p
        = .error "boom" := by
  have h := chunked_failure_aborts
    (fun q => if q = chunkPrompt "f" 0 2 "aaaa.".toList
      then .error "boom" else .ok "S") "aaaa. bbbb." "f" 2
  exact h.2.1 "boom" (by rfl)

/-! ### Multi-file orchestration -/

theorem processFilesLoop_append (ask : LLM) (tokenBudget : Nat)
    (A B : List FileInput) :
    processFilesLoop ask tokenBudget (A ++ B)
      = processFilesLoop ask tokenBudget A ++ processFilesLoop ask tokenBudget B := by
  induction A with
  | nil => simp [processFilesLoop]
  | cons f rest ih =>
    simp only [List.cons_append, processFilesLoop]
    cases h : processOneFile ask tokenBudget f with
    | error e => simp [h, ih]
    | ok o => cases o <;> simp [h, ih]

theorem processFilesLoop_all_ok (ask : LLM) (tokenBudget : Nat)
    (L : List FileInput)
    (h : ∀ g ∈ L, ∃ s, processOneFile ask tokenBudget g = .ok (some s)) :
    (processFilesLoop ask tokenBudget L).length = L.length := by
  induction L with
  | nil => rfl
  | cons f rest ih =>
    obtain ⟨s, hs⟩ := h f (by simp)
    simp only [processFilesLoop, hs, List.length_cons]
    rw [ih (fun g hg => h g (by simp [hg]))]

theorem processFilesLoop_failed (ask : LLM) (tokenBudget : Nat)
    (f : FileInput) (hf : ∃ e, processOneFile ask tokenBudget f = .error e)
    (rest : List FileInput) :
    processFilesLoop ask tokenBudget (f :: rest)
      = processFilesLoop ask tokenBudget rest := by
  obtain ⟨e, he⟩ := hf
  simp [processFilesLoop, he]

/-- C7: in multi-file orchestration over the files A, then f, then B,
when every file of A and B succeeds and file f fails (its read, stat or
generation throws), the loop catches the failure and continues, so the
result set is exactly the summaries of A followed by those of B, with
one summary per successful file and none for f. -/
theorem multifile_failure_isolation (ask : LLM) (tokenBudget : Nat)
    (A B : List FileInput) (f : FileInput)
    (hA : ∀ g ∈ A, ∃ s, processOneFile ask tokenBudget g = .ok (some s))
    (hB : ∀ g ∈ B, ∃ s, processOneFile ask tokenBudget g = .ok (some s))
    (hf : ∃ e, processOneFile ask tokenBudget f = .error e) :
    processFilesLoop ask tokenBudget (A ++ f :: B)
      = processFilesLoop ask tokenBudget A ++ processFilesLoop ask tokenBudget B
    ∧ (processFilesLoop ask tokenBudget (A ++ f :: B)).length
        = A.length + B.length := by
  have happ := processFilesLoop_append ask tokenBudget A (f :: B)
  have hfail := processFilesLoop_failed ask tokenBudget f hf B
  constructor
  · rw [happ, hfail]
  · rw [happ, hfail, List.length_append,
      processFilesLoop_all_ok ask tokenBudget A hA,
      processFilesLoop_all_ok ask tokenBudget B hB]

/-- Witness for C7: of three files the middle one fails to read, and the
loop returns exactly the two summaries of the other files. -/
theorem multifile_failure_isolation_witness :
    processFilesLoop (fun _ => .ok "S") 100
        [⟨"a.md", "a.md", .ok 10, .ok "aaa"⟩,
         ⟨"b.md", "b.md", .ok 10, .error "EACCES"⟩,
         ⟨"c.md", "c.md", .ok 12, .ok "ccc"⟩]
      = processFilesLoop (fun _ => .ok "S") 100 [⟨"a.md", "a.md", .ok 10, .ok "aaa"⟩]
        ++ processFilesLoop (fun _ => .ok "S") 100 [⟨"c.md", "c.md", .ok 12, .ok "ccc"⟩]
    ∧ (processFilesLoop (fun _ => .ok "S") 100
        [⟨"a.md", "a.md", .ok 10, .ok "aaa"⟩,
         ⟨"b.md", "b.md", .ok 10, .error "EACCES"⟩,
         ⟨"c.md", "c.md", .ok 12, .ok "ccc"⟩]).length = 1 + 1 := by
  have h := multifile_failure_isolation (fun _ => .ok "S") 100
    [⟨"a.md", "a.md", .ok 10, .ok "aaa"⟩]
    [⟨"c.md", "c.md", .ok 12, .ok "ccc"⟩]
    ⟨"b.md", "b.md", .ok 10, .error "EACCES"⟩
    (by
      intro g hg
      rw [List.mem_singleton] at hg
      subst hg
      exact ⟨⟨"a.md", "a.md", "S", 1⟩, rfl⟩)
    (by
      intro g hg
      rw [List.mem_singleton] at hg
      subst hg
      exact ⟨⟨"c.md", "c.md", "S", 1⟩, rfl⟩)
    ⟨"EACCES", rfl⟩
  exact ⟨h.1, h.2⟩

/-- C8: the three sites of summarize.js that emit a summary all wrap it
byte for byte in the same marker block, markers and line breaks
included, and each emitted output text contains that exact block, for
the single-input output, the per-file individual output and the
combined output, in both the append-to-file and the console form. -/
theorem summary_marker_block_format (summary displayName : String)
    (isFile toFile : Bool) (fmt : Nat → String) (s : FileSummary)
    (n totalTokens : Nat) :
    singleSummaryBlock summary
      = "<!-- AI:summary -->\n" ++ summary ++ "\n<!-- /AI -->\n"
    ∧ individualSummaryBlock summary
      = "<!-- AI:summary -->\n" ++ summary ++ "\n<!-- /AI -->\n"
    ∧ combinedSummaryBlock summary
      = "<!-- AI:summary -->\n" ++ summary ++ "\n<!-- /AI -->\n"
    ∧ (∃ pre, singleOutputText isFile displayName summary toFile
        = pre ++ ("<!-- AI:summary -->\n" ++ summary ++ "\n<!-- /AI -->\n"))
    ∧ (∃ pre post, individualOutputText fmt s toFile
        = pre ++ ("<!-- AI:summary -->\n" ++ s.summary ++ "\n<!-- /AI -->\n") ++ post)
    ∧ (∃ pre post, combinedOutputText fmt n totalTokens summary toFile
        = pre ++ ("<!-- AI:summary -->\n" ++ summary ++ "\n<!-- /AI -->\n") ++ post) := by
  refine ⟨rfl, rfl, rfl, ?_, ?_, ?_⟩
  · cases toFile with
    | true =>
      exact ⟨(if isFile = true then "\n\n## Summary of " ++ displayName ++ "\n\n"
        else "\n\n## Summary\n\n"), rfl⟩
    | false =>
      refine ⟨"", ?_⟩
      show singleSummaryBlock summary = "" ++ _
      rw [String.empty_append]
      rfl
  · cases toFile with
    | true =>
      refine ⟨"\n\n## Summary of " ++ s.fileName ++ "\n*File: " ++ s.file
        ++ "* | *Tokens: " ++ fmt s.tokens ++ "*\n\n", "", ?_⟩
      rw [String.append_empty]
      rfl
    | false =>
      exact ⟨"\n## " ++ s.fileName ++ "\n" ++ "*File: " ++ s.file
        ++ "* | *Tokens: " ++ fmt s.tokens ++ "*\n", "\n", rfl⟩
  · cases toFile with
    | true =>
      refine ⟨"\n\n## Combined Summary\n*" ++ toString n
        ++ " files processed* | *Total tokens: " ++ fmt totalTokens ++ "*\n\n",
        "", ?_⟩
      rw [String.append_empty]
      rfl
    | false =>
      exact ⟨"\n## Combined Summary\n" ++ "*" ++ toString n
        ++ " files processed* | *Total tokens: " ++ fmt totalTokens ++ "*\n",
        "\n", rfl⟩

/-- C10: the cross-file combined summary is attempted exactly when the
combine option is set or more than ten files were matched; the
threshold reads the matched file list itself, never the outcomes of the
per-file runs, so the equivalence holds for every oracle, including
ones under which files were skipped or failed. -/
theorem combined_summary_condition (ask : LLM) (fmt : Nat → String)
    (tokenBudget : Nat) (combine : Bool) (files : List FileInput) :
    ((processMultipleFiles ask fmt tokenBudget combine files).2.isSome = true
      ↔ (combine = true ∨ 10 < files.length))
    ∧ (processMultipleFiles ask fmt tokenBudget combine files).1
        = processFilesLoop ask tokenBudget files := by
  unfold processMultipleFiles
  by_cases h : (combine || decide (10 < files.length)) = true
  · rw [if_pos h]
    simp only [Bool.or_eq_true, decide_eq_true_eq] at h
    simp [h]
  · rw [if_neg h]
    simp only [Bool.or_eq_true, decide_eq_true_eq] at h
    push_neg at h
    refine ⟨?_, rfl⟩
    simp only [Option.isSome_none, Bool.false_eq_true, false_iff]
    rintro (hc | hl)
    · exact h.1 hc
    · have := h.2
      omega

end Mdchat
